import Mathlib

/-!
# Verification of the pipe-puzzle solver (`blind_search.py`)

A shallow embedding of the solver core of `blind_search.py`:
the pipe geometry table, tiles, puzzle states, the connectivity
traversals of `is_goal` / `get_connected_tiles`, the action generator,
`apply_action`, the heuristic and the A*-shaped `solve` loop.

Positions are pairs of integers `(row, col)`; the Python `dict`
mapping positions to tiles is embedded as an association list
(first-match lookup); a Python `dict` always has pairwise distinct
keys, which appears as a `Nodup` hypothesis where a theorem needs it.
The unbounded `while` loop of `solve` is modelled with explicit fuel:
the outer `Option` is `none` only when fuel runs out, `some r` means
the loop itself returned `r`.
-/

namespace BlindSearch

/-- The six pipe kinds `l v t c e n` of `PIPE_TYPES`. -/
inductive PipeType where
  | l | v | t | c | e | n
deriving DecidableEq, Repr

/-- `PIPE_TYPES`: ordered rotation variants of each kind, each variant a
list of direction indices (0=up, 1=right, 2=down, 3=left). -/
def PIPE_TYPES : PipeType → List (List Nat)
  | .l => [[1, 3], [0, 2]]
  | .v => [[0, 1], [1, 2], [2, 3], [3, 0]]
  | .t => [[0, 1, 3], [0, 1, 2], [1, 2, 3], [0, 2, 3]]
  | .c => [[0, 1, 2, 3]]
  | .e => [[0], [1], [2], [3]]
  | .n => [[]]

/-- A grid position `(row, col)`. -/
abbrev Pos := Int × Int

/-- `DIRS`: unit offset of each direction index.  The table only ever
holds indices 0–3, so the catch-all case is unreachable. -/
def DIRS : Nat → Int × Int
  | 0 => (-1, 0)
  | 1 => (0, 1)
  | 2 => (1, 0)
  | 3 => (0, -1)
  | _ => (0, 0)

/-- `Action(pos, rotation)`: rotate the tile at `pos` to variant index
`rotation`. -/
structure Action where
  pos : Pos
  rotation : Nat
deriving DecidableEq, Repr

/-- `Tile(type_char, rotation)`. -/
structure Tile where
  type : PipeType
  rotation : Nat
deriving DecidableEq, Repr

/-- `Tile.rotate`: a fresh tile of the same kind at rotation `rot`. -/
def Tile.rotate (t : Tile) (rot : Nat) : Tile := ⟨t.type, rot⟩

/-- `Tile.get_connections`: offsets of the variant selected by
`rotation % len(variations)`.  Every `PipeType` is a key of
`PIPE_TYPES`, so the `return []` guard of the Python code is dead; the
`getD` default is likewise unreachable since the index is reduced
modulo the (always positive) length. -/
def Tile.get_connections (t : Tile) : List (Int × Int) :=
  let variations := PIPE_TYPES t.type
  let rot := t.rotation % variations.length
  (variations.getD rot []).map DIRS

/-- First-match lookup in the association list embedding the tile dict. -/
def lookupTile (tiles : List (Pos × Tile)) (p : Pos) : Option Tile :=
  (tiles.find? (fun pt => decide (pt.1 = p))).map Prod.snd

/-- `GameState(grid_size, tiles, source)`. -/
structure GameState where
  grid_size : Nat
  tiles : List (Pos × Tile)
  source : Pos
deriving DecidableEq, Repr

/-- Does the neighbour of `p` in offset direction `d` exist and list the
opposite offset among its own connections?  This is the inline test of
lines 75–77 / 116–118 of the source (the inline expression equals
`neighbor.get_connections()` for every table kind). -/
def neighborConnects (tiles : List (Pos × Tile)) (p : Pos) (d : Int × Int) : Bool :=
  match lookupTile tiles (p.1 + d.1, p.2 + d.2) with
  | none => false
  | some neighbor => decide ((-d.1, -d.2) ∈ neighbor.get_connections)

/-- Append the reciprocating neighbours of `p` onto the stack.  The
Python loop appends to the list's end and pops from the end; here the
stack top is the head, so a left fold pushing to the front visits
neighbours in the same order. -/
def pushNeighbors (tiles : List (Pos × Tile)) (p : Pos) (tile : Tile)
    (rest : List Pos) : List Pos :=
  tile.get_connections.foldl
    (fun acc d =>
      if neighborConnects tiles p d then (p.1 + d.1, p.2 + d.2) :: acc else acc)
    rest

/-- Positions of the tile map, in list order. -/
def tileKeys (tiles : List (Pos × Tile)) : List Pos := tiles.map Prod.fst

/-- The loop variant: five per unreached tile position plus the stack
height.  It strictly decreases at every iteration of either traversal
(a visit consumes one stack entry, adds at most four, and reaches a new
key), so it bounds the number of iterations. -/
def bfsMeasure (tiles : List (Pos × Tile)) (visited frontier : List Pos) : Nat :=
  5 * ((tileKeys tiles).filter (fun k => decide (k ∉ visited))).length + frontier.length

/-- The traversal loop of `is_goal` (lines 63–78), structurally
recursive on explicit fuel: pop a position; skip it if already visited;
otherwise mark it visited and, when it is a tile position, push its
reciprocating neighbours.  Note the source adds the popped position to
`visited` *before* checking that it is a tile position.  The
out-of-fuel clause is unreachable whenever the fuel is at least
`bfsMeasure` (see `bfsGoalLoop_eq`). -/
def bfsGoalFuel (tiles : List (Pos × Tile)) :
    Nat → List Pos → List Pos → List Pos
  | _, visited, [] => visited
  | 0, visited, _ :: _ => visited
  | fuel + 1, visited, p :: rest =>
    if p ∈ visited then bfsGoalFuel tiles fuel visited rest
    else
      match lookupTile tiles p with
      | none => bfsGoalFuel tiles fuel (p :: visited) rest
      | some tile => bfsGoalFuel tiles fuel (p :: visited) (pushNeighbors tiles p tile rest)

/-- The traversal loop of `get_connected_tiles` (lines 106–119): same
stack discipline, but a popped position missing from the tile map is
skipped *without* being marked visited. -/
def bfsConnFuel (tiles : List (Pos × Tile)) :
    Nat → List Pos → List Pos → List Pos
  | _, visited, [] => visited
  | 0, visited, _ :: _ => visited
  | fuel + 1, visited, p :: rest =>
    if p ∈ visited then bfsConnFuel tiles fuel visited rest
    else
      match lookupTile tiles p with
      | none => bfsConnFuel tiles fuel visited rest
      | some tile => bfsConnFuel tiles fuel (p :: visited) (pushNeighbors tiles p tile rest)

/-- The `is_goal` traversal, at its sufficient fuel. -/
def bfsGoalLoop (tiles : List (Pos × Tile)) (visited frontier : List Pos) : List Pos :=
  bfsGoalFuel tiles (bfsMeasure tiles visited frontier) visited frontier

/-- The `get_connected_tiles` traversal, at its sufficient fuel. -/
def bfsConnLoop (tiles : List (Pos × Tile)) (visited frontier : List Pos) : List Pos :=
  bfsConnFuel tiles (bfsMeasure tiles visited frontier) visited frontier

/-- `GameState.is_goal`: every tile position was reached from the
source (`len(visited) == len(self.tiles)`). -/
def GameState.is_goal (s : GameState) : Bool :=
  decide ((bfsGoalLoop s.tiles [] [s.source]).length = s.tiles.length)

/-- `GameState.get_connected_tiles`: the visited set of the traversal. -/
def GameState.get_connected_tiles (s : GameState) : List Pos :=
  bfsConnLoop s.tiles [] [s.source]

/-- Does the variant's single direction point at an `e` neighbour?  Used
by the `break`/`else` of the action generator (lines 90–93). -/
def facesEndNeighbor (tiles : List (Pos × Tile)) (pos : Pos) (variant : List Nat) : Bool :=
  (variant.map DIRS).any (fun d =>
    match lookupTile tiles (pos.1 + d.1, pos.2 + d.2) with
    | none => false
    | some neighbor => decide (neighbor.type = PipeType.e))

/-- `GameState.get_possible_actions` (lines 81–98): for each tile and
each variant index other than the current rotation, emit the action —
unless the tile is an `e` whose candidate variant points at another `e`
tile. -/
def GameState.get_possible_actions (s : GameState) : List Action :=
  s.tiles.flatMap (fun pt =>
    (PIPE_TYPES pt.2.type).enum.filterMap (fun rv =>
      if rv.1 = pt.2.rotation then none
      else if pt.2.type = PipeType.e then
        if facesEndNeighbor s.tiles pt.1 rv.2 then none
        else some ⟨pt.1, rv.1⟩
      else some ⟨pt.1, rv.1⟩))

/-- Overwrite the (first) entry with key `p`, as the dict assignment
`new_tiles[action.pos] = ...` does. -/
def setTile : List (Pos × Tile) → Pos → Tile → List (Pos × Tile)
  | [], _, _ => []
  | pt :: rest, p, t => if pt.1 = p then (p, t) :: rest else pt :: setTile rest p t

/-- `GameState.apply_action` (lines 100–103): copy the tile map and
replace the tile at the action's position by its rotation to the
requested index.  A position absent from the map makes the dict lookup
raise (`KeyError`, the spec's `InvalidAction`), embedded as `none`. -/
def GameState.apply_action (s : GameState) (a : Action) : Option GameState :=
  match lookupTile s.tiles a.pos with
  | none => none
  | some t => some ⟨s.grid_size, setTile s.tiles a.pos (t.rotate a.rotation), s.source⟩

/-- The `dangling` accumulation loop of `AISolver.heuristic`
(lines 130–139): one per connection direction whose neighbour is absent
or does not reciprocate. -/
def danglingOf (s : GameState) : Nat :=
  s.tiles.foldl
    (fun acc pt =>
      pt.2.get_connections.foldl
        (fun acc2 d =>
          match lookupTile s.tiles (pt.1.1 + d.1, pt.1.2 + d.2) with
          | none => acc2 + 1
          | some neighbor =>
            if (-d.1, -d.2) ∈ neighbor.get_connections then acc2 else acc2 + 1)
        acc)
    (0 : Nat)

/-- `AISolver.heuristic` (lines 128–140):
`-(connected * 10) + dangling`. -/
def AISolver.heuristic (s : GameState) : Int :=
  -((s.get_connected_tiles.length : Int) * 10) + danglingOf s

/-- A canonical key entry: `(pos, t.type, t.rotation)`. -/
abbrev Key := List (Pos × PipeType × Nat)

/-- Tuple order on dict items as Python's `sorted` compares them; dict
keys are unique, so comparison never reaches the `Tile` component. -/
def itemLe (a b : Pos × Tile) : Prop :=
  a.1.1 < b.1.1 ∨ (a.1.1 = b.1.1 ∧ a.1.2 ≤ b.1.2)

instance : DecidableRel itemLe := fun a b => by
  unfold itemLe; exact inferInstance

/-- `GameState.hash` (lines 55–56): the sorted `(pos, type, rotation)`
triples of the tile map.  `sorted(...)` sorts the dict items by the
tuple order; with pairwise-distinct keys any sorting algorithm yields
the same list, so insertion sort stands in for Python's stable sort. -/
def GameState.hash (s : GameState) : Key :=
  (List.insertionSort itemLe s.tiles).map (fun pt => (pt.1, pt.2.type, pt.2.rotation))

/-- `GameState.__eq__` (lines 58–59): equality of canonical keys. -/
def GameState.eq (a b : GameState) : Bool :=
  decide (a.hash = b.hash)

/-- A frontier entry `(f, counter, state, path)` as pushed by `solve`. -/
structure Node where
  f : Int
  counter : Nat
  state : GameState
  path : List Action

/-- Strict order on heap entries.  `heapq` compares the tuples
lexicographically; the counter is unique per push, so comparison never
reaches the state. -/
def nodeLt (a b : Node) : Bool :=
  decide (a.f < b.f ∨ (a.f = b.f ∧ a.counter < b.counter))

/-- Remove the least entry under `nodeLt`, as `heapq.heappop` does.  The
minimum is unique because counters are unique. -/
def popMin : List Node → Option (Node × List Node)
  | [] => none
  | n :: rest =>
    match popMin rest with
    | none => some (n, [])
    | some (m, others) => if nodeLt m n then some (m, n :: others) else some (n, rest)

/-- Lookup in the `explored` dict. -/
def exploredLookup (explored : List (Key × Int)) (k : Key) : Option Int :=
  (explored.find? (fun e => decide (e.1 = k))).map Prod.snd

/-- `explored[hash] = f`: overwrite the entry if present, else add it. -/
def exploredInsert : List (Key × Int) → Key → Int → List (Key × Int)
  | [], k, f => [(k, f)]
  | e :: rest, k, f => if e.1 = k then (k, f) :: rest else e :: exploredInsert rest k f

/-- Push one successor per generated action (lines 158–163), threading
the insertion counter, which is incremented before each push.  A
generated action's position is always a key of the map, so the
`apply_action` lookup cannot fail; the `none` branch is unreachable. -/
def expandState (state : GameState) (g : Int) (path : List Action)
    (start : List Node × Nat) : List Node × Nat :=
  state.get_possible_actions.foldl
    (fun fc a =>
      match state.apply_action a with
      | none => fc
      | some ns =>
        let h := AISolver.heuristic ns
        (⟨g + 1 + h, fc.2 + 1, ns, path ++ [a]⟩ :: fc.1, fc.2 + 1))
    start

/-- The `while frontier` loop of `AISolver.solve` (lines 148–166), with
explicit fuel.  `some (some path)` is the goal return, `some none` the
`return None` after exhausting the frontier, `none` means the fuel ran
out before the loop finished. -/
def solveLoop : Nat → List Node → List (Key × Int) → Nat →
    Option (Option (List Action))
  | 0, _, _, _ => none
  | fuel + 1, frontier, explored, counter =>
    match popMin frontier with
    | none => some none
    | some (node, rest) =>
      if node.state.is_goal then some (some node.path)
      else
        let k := node.state.hash
        match exploredLookup explored k with
        | some v =>
          if v ≤ node.f then solveLoop fuel rest explored counter
          else
            let fc := expandState node.state node.path.length node.path (rest, counter)
            solveLoop fuel fc.1 (exploredInsert explored k node.f) fc.2
        | none =>
          let fc := expandState node.state node.path.length node.path (rest, counter)
          solveLoop fuel fc.1 (exploredInsert explored k node.f) fc.2

/-- The initial frontier of `solve` (lines 143–144): the single node
`(0, 0, initial_state, [])`. -/
def AISolver.initFrontier (initial : GameState) : List Node :=
  [⟨0, 0, initial, []⟩]

/-- `AISolver.solve`, with fuel for the unbounded loop. -/
def AISolver.solve (initial : GameState) (fuel : Nat) :
    Option (Option (List Action)) :=
  solveLoop fuel (AISolver.initFrontier initial) [] 0

/-- Folding `apply_action` over an action sequence; `none` as soon as
one action's position is missing. -/
def foldApply (s : GameState) : List Action → Option GameState
  | [] => some s
  | a :: rest =>
    match s.apply_action a with
    | none => none
    | some s' => foldApply s' rest

/-- Is the connection direction `d` of the tile at `pos` dangling: the
neighbouring cell is absent from the tile map, or the neighbour does
not list the opposite direction among its own connections?  (The
spec's description of the summand of `danglingCount`.) -/
def danglingDir (s : GameState) (pos : Pos) (d : Int × Int) : Bool :=
  match lookupTile s.tiles (pos.1 + d.1, pos.2 + d.2) with
  | none => true
  | some neighbor => decide ((-d.1, -d.2) ∉ neighbor.get_connections)

/-- The spec's `danglingCount`: over every tile and each of its active
connection directions, count the dangling ones. -/
def danglingCount (s : GameState) : Nat :=
  (s.tiles.map (fun pt => pt.2.get_connections.countP (danglingDir s pt.1))).sum

/-- Strict tuple order on dict items: `itemLe` together with distinct
keys. -/
def itemLt (a b : Pos × Tile) : Prop :=
  itemLe a b ∧ a.1 ≠ b.1

instance : IsTotal (Pos × Tile) itemLe where
  total a b := by
    unfold itemLe
    omega

instance : IsTrans (Pos × Tile) itemLe where
  trans a b c hab hbc := by
    unfold itemLe at hab hbc ⊢
    omega

instance : IsAntisymm (Pos × Tile) itemLt where
  antisymm a b hab hba := by
    rcases hab with ⟨hab, habne⟩
    rcases hba with ⟨hba, -⟩
    exfalso
    apply habne
    unfold itemLe at hab hba
    rcases hab with h | ⟨h1, h2⟩ <;> rcases hba with h' | ⟨h1', h2'⟩ <;>
      refine Prod.ext ?_ ?_ <;> omega

/-- Scenario states: a horizontal straight tile at the source next to
an end tile looking away (`exStraightEnd`), the same grid after the end
tile was turned to face the straight tile (`exStraightEndGoal`). -/
def exStraightEnd : GameState :=
  ⟨2, [((0, 0), ⟨.l, 0⟩), ((0, 1), ⟨.e, 1⟩)], (0, 0)⟩

def exStraightEndGoal : GameState :=
  ⟨2, [((0, 0), ⟨.l, 0⟩), ((0, 1), ⟨.e, 3⟩)], (0, 0)⟩

/-- Two adjacent end tiles, both pointing up; solvable only by turning
them to face each other. -/
def exTwoEnds : GameState :=
  ⟨2, [((0, 0), ⟨.e, 0⟩), ((0, 1), ⟨.e, 0⟩)], (0, 0)⟩

/-- The two end tiles turned to face each other: the goal configuration
of `exTwoEnds`. -/
def exTwoEndsGoal : GameState :=
  ⟨2, [((0, 0), ⟨.e, 1⟩), ((0, 1), ⟨.e, 3⟩)], (0, 0)⟩

/-- A single connection-free tile with the source at a cell that holds
no tile. -/
def exSourceless : GameState :=
  ⟨1, [((0, 0), ⟨.n, 0⟩)], (1, 1)⟩

/-- The tile map of `exStraightEndGoal` listed in the opposite order,
with a different grid size and a different source. -/
def exPermuted : GameState :=
  ⟨7, [((0, 1), ⟨.e, 3⟩), ((0, 0), ⟨.l, 0⟩)], (5, 5)⟩


/-! ## Lemmas and claim theorems -/

lemma lookupTile_eq_none_iff {tiles : List (Pos × Tile)} {p : Pos} :
    lookupTile tiles p = none ↔ p ∉ tileKeys tiles := by
  unfold lookupTile tileKeys
  rw [Option.map_eq_none', List.find?_eq_none]
  constructor
  · intro h hmem
    obtain ⟨pt, hmem', hp⟩ := List.mem_map.mp hmem
    exact h pt hmem' (decide_eq_true hp)
  · intro h pt hmem hp
    exact h (List.mem_map.mpr ⟨pt, hmem, of_decide_eq_true hp⟩)

lemma lookupTile_isSome_iff {tiles : List (Pos × Tile)} {p : Pos} :
    (lookupTile tiles p).isSome ↔ p ∈ tileKeys tiles := by
  constructor
  · intro h
    by_contra hmem
    rw [← lookupTile_eq_none_iff] at hmem
    rw [hmem] at h
    exact absurd h (by simp)
  · intro h
    by_contra hs
    rw [Option.not_isSome_iff_eq_none, lookupTile_eq_none_iff] at hs
    exact hs h

/-- Adding a position to `visited` never increases the unreached count. -/
lemma filter_not_mem_cons_le (keys : List Pos) (p : Pos) (visited : List Pos) :
    (keys.filter (fun k => decide (k ∉ p :: visited))).length ≤
      (keys.filter (fun k => decide (k ∉ visited))).length := by
  rw [← List.countP_eq_length_filter, ← List.countP_eq_length_filter]
  apply List.countP_mono_left
  intro x _ hx
  have hx' := of_decide_eq_true hx
  exact decide_eq_true fun hmem => hx' (List.mem_cons.mpr (Or.inr hmem))

/-- A position outside the key set does not change the unreached count. -/
lemma filter_not_mem_cons_of_not_mem {keys : List Pos} {p : Pos}
    (hp : p ∉ keys) (visited : List Pos) :
    (keys.filter (fun k => decide (k ∉ p :: visited))).length =
      (keys.filter (fun k => decide (k ∉ visited))).length := by
  apply congrArg
  apply List.filter_congr
  intro k hk
  have hkp : k ≠ p := fun h => hp (h ▸ hk)
  simp [List.mem_cons, hkp]

/-- Visiting an unreached key strictly shrinks the unreached count. -/
lemma filter_not_mem_cons_lt {keys : List Pos} {p : Pos} {visited : List Pos}
    (hp : p ∈ keys) (hnv : p ∉ visited) :
    (keys.filter (fun k => decide (k ∉ p :: visited))).length <
      (keys.filter (fun k => decide (k ∉ visited))).length := by
  induction keys with
  | nil => cases hp
  | cons k ks ih =>
    by_cases hkp : k = p
    · have h1 : (decide (k ∉ p :: visited)) = false := by simp [hkp]
      have h2 : (decide (k ∉ visited)) = true := by rw [hkp]; simpa using hnv
      simp only [List.filter_cons, h1, h2, Bool.false_eq_true, if_false, if_true,
        List.length_cons]
      exact Nat.lt_succ_of_le (filter_not_mem_cons_le ks p visited)
    · have hpks : p ∈ ks := by
        rcases List.mem_cons.mp hp with h | h
        · exact absurd h.symm hkp
        · exact h
      by_cases hkv : k ∈ visited
      · have h1 : (decide (k ∉ p :: visited)) = false := by
          simp [List.mem_cons, hkv]
        have h2 : (decide (k ∉ visited)) = false := by simp [hkv]
        simp only [List.filter_cons, h1, h2, Bool.false_eq_true, if_false]
        exact ih hpks
      · have h1 : (decide (k ∉ p :: visited)) = true := by
          simp [List.mem_cons, hkp, hkv]
        have h2 : (decide (k ∉ visited)) = true := by simpa using hkv
        simp only [List.filter_cons, h1, h2, if_true, List.length_cons]
        exact Nat.succ_lt_succ (ih hpks)

/-- Every variant of every kind has at most four directions. -/
lemma variant_length_le (ty : PipeType) (i : Nat) :
    ((PIPE_TYPES ty).getD i []).length ≤ 4 := by
  cases ty <;> rcases i with _ | _ | _ | _ | i <;> simp [PIPE_TYPES, List.getD]

lemma get_connections_length_le (t : Tile) : t.get_connections.length ≤ 4 := by
  unfold Tile.get_connections
  simpa using variant_length_le t.type _

lemma pushNeighbors_length_le (tiles : List (Pos × Tile)) (p : Pos) (tile : Tile)
    (rest : List Pos) :
    (pushNeighbors tiles p tile rest).length ≤ rest.length + 4 := by
  have key : ∀ (l : List (Int × Int)) (acc : List Pos),
      (l.foldl (fun acc d =>
        if neighborConnects tiles p d then (p.1 + d.1, p.2 + d.2) :: acc else acc)
        acc).length ≤ acc.length + l.length := by
    intro l
    induction l with
    | nil => intro acc; simp
    | cons d ds ih =>
      intro acc
      simp only [List.foldl_cons, List.length_cons]
      refine le_trans (ih _) ?_
      by_cases hc : neighborConnects tiles p d <;> simp [hc] <;> omega
  refine le_trans (key _ _) ?_
  have := get_connections_length_le tile
  omega

/-- Whatever `pushNeighbors` adds to the stack is a key of the map. -/
lemma pushNeighbors_mem {tiles : List (Pos × Tile)} {p : Pos} {tile : Tile}
    {rest : List Pos} {q : Pos} (hq : q ∈ pushNeighbors tiles p tile rest) :
    q ∈ rest ∨ q ∈ tileKeys tiles := by
  have key : ∀ (l : List (Int × Int)) (acc : List Pos),
      q ∈ l.foldl (fun acc d =>
        if neighborConnects tiles p d then (p.1 + d.1, p.2 + d.2) :: acc else acc) acc →
      q ∈ acc ∨ q ∈ tileKeys tiles := by
    intro l
    induction l with
    | nil => intro acc h; exact Or.inl h
    | cons d ds ih =>
      intro acc h
      rcases ih _ h with hacc | hkeys
      · have hacc' : q ∈ if neighborConnects tiles p d then
            (p.1 + d.1, p.2 + d.2) :: acc else acc := hacc
        by_cases hc : neighborConnects tiles p d
        · rw [if_pos hc] at hacc'
          rcases List.mem_cons.mp hacc' with rfl | h'
          · right
            rw [← lookupTile_isSome_iff]
            unfold neighborConnects at hc
            cases hl : lookupTile tiles (p.1 + d.1, p.2 + d.2)
            · rw [hl] at hc; cases hc
            · rfl
          · exact Or.inl h'
        · rw [if_neg hc] at hacc'
          exact Or.inl hacc'
      · exact Or.inr hkeys
  exact key _ _ hq


/-- The result of `bfsGoalFuel` does not depend on the fuel, as long as
the fuel covers the loop variant. -/
lemma bfsGoalFuel_congr (tiles : List (Pos × Tile)) :
    ∀ f₁ f₂ visited frontier, bfsMeasure tiles visited frontier ≤ f₁ →
      bfsMeasure tiles visited frontier ≤ f₂ →
      bfsGoalFuel tiles f₁ visited frontier = bfsGoalFuel tiles f₂ visited frontier := by
  intro f₁
  induction f₁ with
  | zero =>
    intro f₂ visited frontier h₁ _
    cases frontier with
    | nil => cases f₂ <;> rfl
    | cons p rest => simp [bfsMeasure] at h₁
  | succ g₁ ih =>
    intro f₂ visited frontier h₁ h₂
    cases frontier with
    | nil => cases f₂ <;> rfl
    | cons p rest =>
      cases f₂ with
      | zero => simp [bfsMeasure] at h₂
      | succ g₂ =>
        unfold bfsGoalFuel
        by_cases hv : p ∈ visited
        · rw [if_pos hv, if_pos hv]
          apply ih
          · simp only [bfsMeasure, List.length_cons] at h₁ ⊢; omega
          · simp only [bfsMeasure, List.length_cons] at h₂ ⊢; omega
        · rw [if_neg hv, if_neg hv]
          cases hl : lookupTile tiles p with
          | none =>
            have hnp : p ∉ tileKeys tiles := lookupTile_eq_none_iff.mp hl
            have hsame := filter_not_mem_cons_of_not_mem hnp visited
            apply ih
            · simp only [bfsMeasure, List.length_cons] at h₁ ⊢; omega
            · simp only [bfsMeasure, List.length_cons] at h₂ ⊢; omega
          | some tile =>
            have hp : p ∈ tileKeys tiles := by
              rw [← lookupTile_isSome_iff]; rw [hl]; rfl
            have hlt := filter_not_mem_cons_lt hp hv
            have hpush := pushNeighbors_length_le tiles p tile rest
            apply ih
            · simp only [bfsMeasure, List.length_cons] at h₁ ⊢; omega
            · simp only [bfsMeasure, List.length_cons] at h₂ ⊢; omega

/-- The result of `bfsConnFuel` does not depend on the fuel, as long as
the fuel covers the loop variant. -/
lemma bfsConnFuel_congr (tiles : List (Pos × Tile)) :
    ∀ f₁ f₂ visited frontier, bfsMeasure tiles visited frontier ≤ f₁ →
      bfsMeasure tiles visited frontier ≤ f₂ →
      bfsConnFuel tiles f₁ visited frontier = bfsConnFuel tiles f₂ visited frontier := by
  intro f₁
  induction f₁ with
  | zero =>
    intro f₂ visited frontier h₁ _
    cases frontier with
    | nil => cases f₂ <;> rfl
    | cons p rest => simp [bfsMeasure] at h₁
  | succ g₁ ih =>
    intro f₂ visited frontier h₁ h₂
    cases frontier with
    | nil => cases f₂ <;> rfl
    | cons p rest =>
      cases f₂ with
      | zero => simp [bfsMeasure] at h₂
      | succ g₂ =>
        unfold bfsConnFuel
        by_cases hv : p ∈ visited
        · rw [if_pos hv, if_pos hv]
          apply ih
          · simp only [bfsMeasure, List.length_cons] at h₁ ⊢; omega
          · simp only [bfsMeasure, List.length_cons] at h₂ ⊢; omega
        · rw [if_neg hv, if_neg hv]
          cases hl : lookupTile tiles p with
          | none =>
            apply ih
            · simp only [bfsMeasure, List.length_cons] at h₁ ⊢; omega
            · simp only [bfsMeasure, List.length_cons] at h₂ ⊢; omega
          | some tile =>
            have hp : p ∈ tileKeys tiles := by
              rw [← lookupTile_isSome_iff]; rw [hl]; rfl
            have hlt := filter_not_mem_cons_lt hp hv
            have hpush := pushNeighbors_length_le tiles p tile rest
            apply ih
            · simp only [bfsMeasure, List.length_cons] at h₁ ⊢; omega
            · simp only [bfsMeasure, List.length_cons] at h₂ ⊢; omega


/-- One structural step of `bfsGoalFuel` at positive fuel. -/
lemma bfsGoalFuel_succ (tiles : List (Pos × Tile)) (g : Nat) (visited : List Pos)
    (p : Pos) (rest : List Pos) :
    bfsGoalFuel tiles (g + 1) visited (p :: rest) =
      if p ∈ visited then bfsGoalFuel tiles g visited rest
      else
        match lookupTile tiles p with
        | none => bfsGoalFuel tiles g (p :: visited) rest
        | some tile =>
          bfsGoalFuel tiles g (p :: visited) (pushNeighbors tiles p tile rest) := rfl

/-- One structural step of `bfsConnFuel` at positive fuel. -/
lemma bfsConnFuel_succ (tiles : List (Pos × Tile)) (g : Nat) (visited : List Pos)
    (p : Pos) (rest : List Pos) :
    bfsConnFuel tiles (g + 1) visited (p :: rest) =
      if p ∈ visited then bfsConnFuel tiles g visited rest
      else
        match lookupTile tiles p with
        | none => bfsConnFuel tiles g visited rest
        | some tile =>
          bfsConnFuel tiles g (p :: visited) (pushNeighbors tiles p tile rest) := rfl

/-- `bfsGoalLoop` satisfies exactly the recurrence of the Python loop
of `is_goal`; in particular the out-of-fuel clause of `bfsGoalFuel` is
never taken. -/
theorem bfsGoalLoop_eq (tiles : List (Pos × Tile)) (visited frontier : List Pos) :
    bfsGoalLoop tiles visited frontier =
      match frontier with
      | [] => visited
      | p :: rest =>
        if p ∈ visited then bfsGoalLoop tiles visited rest
        else
          match lookupTile tiles p with
          | none => bfsGoalLoop tiles (p :: visited) rest
          | some tile => bfsGoalLoop tiles (p :: visited) (pushNeighbors tiles p tile rest) := by
  cases frontier with
  | nil =>
    show bfsGoalFuel tiles (bfsMeasure tiles visited []) visited [] = visited
    cases bfsMeasure tiles visited ([] : List Pos) <;> rfl
  | cons p rest =>
    obtain ⟨g, hg⟩ : ∃ g, bfsMeasure tiles visited (p :: rest) = g + 1 := ⟨_, rfl⟩
    have lhs : bfsGoalLoop tiles visited (p :: rest)
        = bfsGoalFuel tiles (g + 1) visited (p :: rest) := by
      unfold bfsGoalLoop; rw [hg]
    rw [lhs, bfsGoalFuel_succ]
    show _ = if p ∈ visited then bfsGoalLoop tiles visited rest
      else
        match lookupTile tiles p with
        | none => bfsGoalLoop tiles (p :: visited) rest
        | some tile => bfsGoalLoop tiles (p :: visited) (pushNeighbors tiles p tile rest)
    by_cases hv : p ∈ visited
    · rw [if_pos hv, if_pos hv]
      exact bfsGoalFuel_congr tiles g _ visited rest
        (by simp only [bfsMeasure, List.length_cons] at hg ⊢; omega) le_rfl
    · rw [if_neg hv, if_neg hv]
      cases hl : lookupTile tiles p with
      | none =>
        have hnp : p ∉ tileKeys tiles := lookupTile_eq_none_iff.mp hl
        have hsame := filter_not_mem_cons_of_not_mem hnp visited
        exact bfsGoalFuel_congr tiles g _ (p :: visited) rest
          (by simp only [bfsMeasure, List.length_cons] at hg ⊢; omega) le_rfl
      | some tile =>
        have hp : p ∈ tileKeys tiles := by
          rw [← lookupTile_isSome_iff]; rw [hl]; rfl
        have hlt := filter_not_mem_cons_lt hp hv
        have hpush := pushNeighbors_length_le tiles p tile rest
        exact bfsGoalFuel_congr tiles g _ (p :: visited) (pushNeighbors tiles p tile rest)
          (by simp only [bfsMeasure, List.length_cons] at hg ⊢; omega) le_rfl

/-- `bfsConnLoop` satisfies exactly the recurrence of the Python loop
of `get_connected_tiles`. -/
theorem bfsConnLoop_eq (tiles : List (Pos × Tile)) (visited frontier : List Pos) :
    bfsConnLoop tiles visited frontier =
      match frontier with
      | [] => visited
      | p :: rest =>
        if p ∈ visited then bfsConnLoop tiles visited rest
        else
          match lookupTile tiles p with
          | none => bfsConnLoop tiles visited rest
          | some tile => bfsConnLoop tiles (p :: visited) (pushNeighbors tiles p tile rest) := by
  cases frontier with
  | nil =>
    show bfsConnFuel tiles (bfsMeasure tiles visited []) visited [] = visited
    cases bfsMeasure tiles visited ([] : List Pos) <;> rfl
  | cons p rest =>
    obtain ⟨g, hg⟩ : ∃ g, bfsMeasure tiles visited (p :: rest) = g + 1 := ⟨_, rfl⟩
    have lhs : bfsConnLoop tiles visited (p :: rest)
        = bfsConnFuel tiles (g + 1) visited (p :: rest) := by
      unfold bfsConnLoop; rw [hg]
    rw [lhs, bfsConnFuel_succ]
    show _ = if p ∈ visited then bfsConnLoop tiles visited rest
      else
        match lookupTile tiles p with
        | none => bfsConnLoop tiles visited rest
        | some tile => bfsConnLoop tiles (p :: visited) (pushNeighbors tiles p tile rest)
    by_cases hv : p ∈ visited
    · rw [if_pos hv, if_pos hv]
      exact bfsConnFuel_congr tiles g _ visited rest
        (by simp only [bfsMeasure, List.length_cons] at hg ⊢; omega) le_rfl
    · rw [if_neg hv, if_neg hv]
      cases hl : lookupTile tiles p with
      | none =>
        exact bfsConnFuel_congr tiles g _ visited rest
          (by simp only [bfsMeasure, List.length_cons] at hg ⊢; omega) le_rfl
      | some tile =>
        have hp : p ∈ tileKeys tiles := by
          rw [← lookupTile_isSome_iff]; rw [hl]; rfl
        have hlt := filter_not_mem_cons_lt hp hv
        have hpush := pushNeighbors_length_le tiles p tile rest
        exact bfsConnFuel_congr tiles g _ (p :: visited) (pushNeighbors tiles p tile rest)
          (by simp only [bfsMeasure, List.length_cons] at hg ⊢; omega) le_rfl


/-- C9: for every tile kind and every rotation index, advancing the
rotation by the kind's variant count leaves the connection set
unchanged — a full cycle of rotations is the identity on
connections. -/
theorem claim_C9_rotation_closure (k : PipeType) (r : Nat) :
    Tile.get_connections ⟨k, r + (PIPE_TYPES k).length⟩ =
      Tile.get_connections ⟨k, r⟩ := by
  simp [Tile.get_connections, Nat.add_mod_right]

/-- C7: `apply_action` fails (the dict lookup raises, the spec's
`InvalidAction`) exactly when the action's position is absent from the
tile map; in the embedding no successor state is produced and the input
state, being a value, is untouched. -/
theorem claim_C7_invalid_action (s : GameState) (a : Action) :
    s.apply_action a = none ↔ lookupTile s.tiles a.pos = none := by
  unfold GameState.apply_action
  cases h : lookupTile s.tiles a.pos <;> simp

lemma lookupTile_cons (pt : Pos × Tile) (rest : List (Pos × Tile)) (q : Pos) :
    lookupTile (pt :: rest) q =
      if pt.1 = q then some pt.2 else lookupTile rest q := by
  unfold lookupTile
  rw [List.find?_cons]
  by_cases h : pt.1 = q
  · simp [h]
  · simp [h]

lemma lookupTile_setTile_self (tiles : List (Pos × Tile)) (p : Pos) (t' : Tile)
    (h : (lookupTile tiles p).isSome) :
    lookupTile (setTile tiles p t') p = some t' := by
  induction tiles with
  | nil => simp [lookupTile] at h
  | cons pt rest ih =>
    by_cases hp : pt.1 = p
    · simp only [setTile, if_pos hp, lookupTile_cons]
      simp
    · simp only [setTile, if_neg hp, lookupTile_cons, hp, if_false]
      apply ih
      rw [lookupTile_cons, if_neg hp] at h
      exact h

lemma lookupTile_setTile_ne (tiles : List (Pos × Tile)) (p q : Pos) (t' : Tile)
    (hq : q ≠ p) :
    lookupTile (setTile tiles p t') q = lookupTile tiles q := by
  induction tiles with
  | nil => rfl
  | cons pt rest ih =>
    by_cases hp : pt.1 = p
    · simp only [setTile, if_pos hp, lookupTile_cons]
      have h1 : ¬(p = q) := fun h => hq h.symm
      have h2 : ¬(pt.1 = q) := fun h => hq (h ▸ hp.symm ▸ rfl) |>.elim
      rw [if_neg h1, if_neg (hp ▸ h1)]
    · simp only [setTile, if_neg hp, lookupTile_cons]
      by_cases hq2 : pt.1 = q
      · rw [if_pos hq2, if_pos hq2]
      · rw [if_neg hq2, if_neg hq2, ih]

lemma tileKeys_setTile (tiles : List (Pos × Tile)) (p : Pos) (t' : Tile) :
    tileKeys (setTile tiles p t') = tileKeys tiles := by
  induction tiles with
  | nil => rfl
  | cons pt rest ih =>
    by_cases hp : pt.1 = p
    · simp [setTile, if_pos hp, tileKeys, hp]
    · simp only [setTile, if_neg hp, tileKeys, List.map_cons]
      have ih' : List.map Prod.fst (setTile rest p t') = List.map Prod.fst rest := ih
      rw [ih']

/-- The full frame specification of a successful `apply_action`: same
grid size, same source, the action's position remapped to the rotated
tile, every other position untouched, the key set unchanged. -/
lemma apply_action_spec (s : GameState) (a : Action) (t : Tile)
    (h : lookupTile s.tiles a.pos = some t) :
    ∃ s', s.apply_action a = some s' ∧
      s'.grid_size = s.grid_size ∧ s'.source = s.source ∧
      lookupTile s'.tiles a.pos = some ⟨t.type, a.rotation⟩ ∧
      (∀ q : Pos, q ≠ a.pos → lookupTile s'.tiles q = lookupTile s.tiles q) ∧
      tileKeys s'.tiles = tileKeys s.tiles := by
  refine ⟨⟨s.grid_size, setTile s.tiles a.pos (t.rotate a.rotation), s.source⟩,
    ?_, rfl, rfl, ?_, ?_, ?_⟩
  · unfold GameState.apply_action
    rw [h]
  · exact lookupTile_setTile_self _ _ _ (by rw [h]; rfl)
  · intro q hq
    exact lookupTile_setTile_ne _ _ _ _ hq
  · exact tileKeys_setTile _ _ _

/-- C6: for an action whose position is in the tile map, `apply_action`
returns a new state with the same grid size and source whose map binds
the action's position to a tile of the same kind at the action's
rotation and binds every other position as before; the input state is a
value and is never mutated — the derived map differs in exactly the one
overwritten entry. -/
theorem claim_C6_apply_action_frame (s : GameState) (a : Action) (t : Tile)
    (h : lookupTile s.tiles a.pos = some t) :
    ∃ s', s.apply_action a = some s' ∧
      s'.grid_size = s.grid_size ∧ s'.source = s.source ∧
      lookupTile s'.tiles a.pos = some ⟨t.type, a.rotation⟩ ∧
      (∀ q : Pos, q ≠ a.pos → lookupTile s'.tiles q = lookupTile s.tiles q) ∧
      tileKeys s'.tiles = tileKeys s.tiles :=
  apply_action_spec s a t h

/-- C6, instantiated: rotating the end tile of the two-tile scenario to
orientation 0. -/
theorem claim_C6_witness :
    lookupTile exStraightEnd.tiles ((0 : Int), (1 : Int)) = some ⟨PipeType.e, 1⟩ ∧
    (∃ s', exStraightEnd.apply_action ⟨(0, 1), 0⟩ = some s' ∧
      s'.grid_size = exStraightEnd.grid_size ∧ s'.source = exStraightEnd.source ∧
      lookupTile s'.tiles ((0 : Int), (1 : Int)) = some ⟨PipeType.e, 0⟩ ∧
      (∀ q : Pos, q ≠ ((0 : Int), (1 : Int)) →
        lookupTile s'.tiles q = lookupTile exStraightEnd.tiles q) ∧
      tileKeys s'.tiles = tileKeys exStraightEnd.tiles) :=
  ⟨by decide, claim_C6_apply_action_frame exStraightEnd ⟨(0, 1), 0⟩ ⟨PipeType.e, 1⟩ (by decide)⟩

lemma dangling_inner (s : GameState) (pos : Pos) :
    ∀ (l : List (Int × Int)) (acc : Nat),
      l.foldl (fun acc2 d =>
        match lookupTile s.tiles (pos.1 + d.1, pos.2 + d.2) with
        | none => acc2 + 1
        | some neighbor =>
          if (-d.1, -d.2) ∈ neighbor.get_connections then acc2 else acc2 + 1) acc
      = acc + l.countP (danglingDir s pos) := by
  intro l
  induction l with
  | nil => intro acc; simp
  | cons d ds ih =>
    intro acc
    rw [List.foldl_cons, ih, List.countP_cons]
    have hbody : (match lookupTile s.tiles (pos.1 + d.1, pos.2 + d.2) with
        | none => acc + 1
        | some neighbor =>
          if (-d.1, -d.2) ∈ neighbor.get_connections then acc else acc + 1)
        = acc + (if danglingDir s pos d then 1 else 0) := by
      cases hl : lookupTile s.tiles (pos.1 + d.1, pos.2 + d.2) with
      | none =>
        have hd : danglingDir s pos d = true := by unfold danglingDir; rw [hl]
        simp [hd]
      | some neighbor =>
        by_cases hm : (-d.1, -d.2) ∈ neighbor.get_connections
        · have hd : danglingDir s pos d = false := by
            unfold danglingDir; rw [hl]; simpa using hm
          simp [hm, hd]
        · have hd : danglingDir s pos d = true := by
            unfold danglingDir; rw [hl]; simpa using hm
          simp [hm, hd]
    rw [hbody]
    cases danglingDir s pos d <;> simp <;> omega

lemma danglingOf_eq (s : GameState) : danglingOf s = danglingCount s := by
  unfold danglingOf danglingCount
  have key : ∀ (items : List (Pos × Tile)) (acc : Nat),
      items.foldl (fun acc pt =>
        pt.2.get_connections.foldl
          (fun acc2 d =>
            match lookupTile s.tiles (pt.1.1 + d.1, pt.1.2 + d.2) with
            | none => acc2 + 1
            | some neighbor =>
              if (-d.1, -d.2) ∈ neighbor.get_connections then acc2 else acc2 + 1)
          acc) acc
        = acc + (items.map
            (fun pt => pt.2.get_connections.countP (danglingDir s pt.1))).sum := by
    intro items
    induction items with
    | nil => intro acc; simp
    | cons pt rest ih =>
      intro acc
      rw [List.foldl_cons, ih, dangling_inner s pt.1]
      simp only [List.map_cons, List.sum_cons]
      omega
  simpa using key s.tiles 0

/-- C3: the heuristic is exactly minus ten times the size of the
connected set plus the spec's `danglingCount`. -/
theorem claim_C3_heuristic_formula (s : GameState) :
    AISolver.heuristic s =
      -(10 * (s.get_connected_tiles.length : Int)) + danglingCount s := by
  unfold AISolver.heuristic
  rw [danglingOf_eq]
  ring

/-- As long as the stack holds only tile positions, the `is_goal` and
`get_connected_tiles` traversals coincide: the branch in which they
differ (a popped position that is not a tile position) is never
taken. -/
lemma bfsFuel_agree (tiles : List (Pos × Tile)) :
    ∀ (fuel : Nat) (visited frontier : List Pos),
      (∀ q ∈ frontier, q ∈ tileKeys tiles) →
      bfsGoalFuel tiles fuel visited frontier = bfsConnFuel tiles fuel visited frontier := by
  intro fuel
  induction fuel with
  | zero => intro visited frontier _; cases frontier <;> rfl
  | succ g ih =>
    intro visited frontier hf
    cases frontier with
    | nil => rfl
    | cons p rest =>
      rw [bfsGoalFuel_succ, bfsConnFuel_succ]
      have hrest : ∀ q ∈ rest, q ∈ tileKeys tiles :=
        fun q hq => hf q (List.mem_cons_of_mem _ hq)
      by_cases hv : p ∈ visited
      · rw [if_pos hv, if_pos hv]
        exact ih visited rest hrest
      · rw [if_neg hv, if_neg hv]
        cases hl : lookupTile tiles p with
        | none =>
          exact absurd (hf p (List.mem_cons_self p rest)) (lookupTile_eq_none_iff.mp hl)
        | some tile =>
          apply ih
          intro q hq
          rcases pushNeighbors_mem hq with h' | h'
          · exact hrest q h'
          · exact h'

/-- Every already-visited position survives to the final visited set. -/
lemma mem_bfsConnFuel (tiles : List (Pos × Tile)) :
    ∀ (fuel : Nat) (visited frontier : List Pos) (q : Pos),
      q ∈ visited → q ∈ bfsConnFuel tiles fuel visited frontier := by
  intro fuel
  induction fuel with
  | zero => intro visited frontier q hq; cases frontier <;> exact hq
  | succ g ih =>
    intro visited frontier q hq
    cases frontier with
    | nil => exact hq
    | cons p rest =>
      rw [bfsConnFuel_succ]
      by_cases hv : p ∈ visited
      · rw [if_pos hv]
        exact ih _ _ _ hq
      · rw [if_neg hv]
        cases hl : lookupTile tiles p with
        | none => exact ih _ _ _ hq
        | some tile => exact ih _ _ _ (List.mem_cons_of_mem _ hq)

/-- C2, as stated, is false: with the source at a cell that holds no
tile, `is_goal` counts the source itself as visited, so a one-tile map
can pass the goal test while the connected set is empty and misses the
source. -/
theorem claim_C2_counterexample :
    exSourceless.is_goal = true ∧
    ¬(exSourceless.get_connected_tiles.length = exSourceless.tiles.length ∧
      exSourceless.source ∈ exSourceless.get_connected_tiles) := by decide

/-- C2 amended: *provided the source position is a key of the tile
map*, a true `is_goal` forces the connected set to have exactly one
member per tile and to contain the source. -/
theorem claim_C2_goal_soundness (s : GameState)
    (hsrc : s.source ∈ tileKeys s.tiles) (hg : s.is_goal = true) :
    s.get_connected_tiles.length = s.tiles.length ∧
    s.source ∈ s.get_connected_tiles := by
  have hagree : bfsGoalLoop s.tiles [] [s.source] = bfsConnLoop s.tiles [] [s.source] := by
    unfold bfsGoalLoop bfsConnLoop
    apply bfsFuel_agree
    intro q hq
    rw [List.mem_singleton] at hq
    exact hq ▸ hsrc
  have hlen : (bfsGoalLoop s.tiles [] [s.source]).length = s.tiles.length := by
    unfold GameState.is_goal at hg
    exact of_decide_eq_true hg
  obtain ⟨t, ht⟩ : ∃ t, lookupTile s.tiles s.source = some t :=
    Option.isSome_iff_exists.mp (lookupTile_isSome_iff.mpr hsrc)
  constructor
  · unfold GameState.get_connected_tiles
    rw [← hagree]
    exact hlen
  · unfold GameState.get_connected_tiles
    rw [bfsConnLoop_eq]
    show s.source ∈ (if s.source ∈ ([] : List Pos) then bfsConnLoop s.tiles [] []
      else match lookupTile s.tiles s.source with
      | none => bfsConnLoop s.tiles [] []
      | some tile =>
        bfsConnLoop s.tiles [s.source] (pushNeighbors s.tiles s.source tile []))
    rw [if_neg (List.not_mem_nil _), ht]
    unfold bfsConnLoop
    exact mem_bfsConnFuel s.tiles _ _ _ _ (List.mem_singleton_self _)

/-- With pairwise-distinct keys, a list entry is what lookup finds. -/
lemma lookupTile_of_mem_nodup {tiles : List (Pos × Tile)}
    (hnd : (tileKeys tiles).Nodup) {pt : Pos × Tile} (h : pt ∈ tiles) :
    lookupTile tiles pt.1 = some pt.2 := by
  induction tiles with
  | nil => cases h
  | cons x rest ih =>
    have hkeys : tileKeys (x :: rest) = x.1 :: tileKeys rest := rfl
    rw [hkeys, List.nodup_cons] at hnd
    rcases List.mem_cons.mp h with rfl | hmem
    · rw [lookupTile_cons, if_pos rfl]
    · have hne : x.1 ≠ pt.1 := by
        intro he
        exact hnd.1 (by rw [he]; exact List.mem_map_of_mem Prod.fst hmem)
      rw [lookupTile_cons, if_neg hne]
      exact ih hnd.2 hmem

/-- Dissect membership in the generated action list: the action comes
from some map entry, targets its key, carries an in-range variant
index different from the entry's rotation, and — for an end tile —
passed the end-facing-end filter. -/
lemma get_possible_actions_spec {s : GameState} {a : Action}
    (ha : a ∈ s.get_possible_actions) :
    ∃ pt ∈ s.tiles, ∃ variant,
      a.pos = pt.1 ∧
      (PIPE_TYPES pt.2.type)[a.rotation]? = some variant ∧
      a.rotation ≠ pt.2.rotation ∧
      (pt.2.type = PipeType.e → facesEndNeighbor s.tiles pt.1 variant = false) := by
  unfold GameState.get_possible_actions at ha
  rw [List.mem_flatMap] at ha
  obtain ⟨pt, hpt, hin⟩ := ha
  rw [List.mem_filterMap] at hin
  obtain ⟨rv, hrv, hf⟩ := hin
  have hget : (PIPE_TYPES pt.2.type)[rv.1]? = some rv.2 :=
    List.mem_enum_iff_getElem?.mp hrv
  replace hf : (if rv.1 = pt.2.rotation then (none : Option Action)
      else if pt.2.type = PipeType.e then
        (if facesEndNeighbor s.tiles pt.1 rv.2 then none else some ⟨pt.1, rv.1⟩)
      else some ⟨pt.1, rv.1⟩) = some a := hf
  by_cases h1 : rv.1 = pt.2.rotation
  · rw [if_pos h1] at hf; cases hf
  · rw [if_neg h1] at hf
    by_cases h2 : pt.2.type = PipeType.e
    · rw [if_pos h2] at hf
      by_cases h3 : facesEndNeighbor s.tiles pt.1 rv.2
      · rw [if_pos h3] at hf; cases hf
      · rw [if_neg h3] at hf
        obtain rfl : a = ⟨pt.1, rv.1⟩ := (Option.some.inj hf).symm
        exact ⟨pt, hpt, rv.2, rfl, hget, h1, fun _ => by simpa using h3⟩
    · rw [if_neg h2] at hf
      obtain rfl : a = ⟨pt.1, rv.1⟩ := (Option.some.inj hf).symm
      exact ⟨pt, hpt, rv.2, rfl, hget, h1, fun hc => absurd hc h2⟩

/-- C4: every generated action targets a position of the tile map with
a rotation index different from that tile's current one; applying it
succeeds and changes exactly that tile's rotation (same kind, all other
positions and the grid and source untouched); and no generated action
rotates an end tile so that its single connection direction points at a
neighbouring end tile. -/
theorem claim_C4_action_legality (s : GameState)
    (hnd : (tileKeys s.tiles).Nodup) (a : Action)
    (ha : a ∈ s.get_possible_actions) :
    ∃ t : Tile, lookupTile s.tiles a.pos = some t ∧
      a.rotation ≠ t.rotation ∧
      (∃ s', s.apply_action a = some s' ∧
        lookupTile s'.tiles a.pos = some ⟨t.type, a.rotation⟩ ∧
        (∀ q : Pos, q ≠ a.pos → lookupTile s'.tiles q = lookupTile s.tiles q) ∧
        s'.grid_size = s.grid_size ∧ s'.source = s.source) ∧
      (t.type = PipeType.e →
        ∀ d ∈ (Tile.mk PipeType.e a.rotation).get_connections,
          ∀ nt : Tile, lookupTile s.tiles (a.pos.1 + d.1, a.pos.2 + d.2) = some nt →
            nt.type ≠ PipeType.e) := by
  obtain ⟨pt, hpt, variant, hpos, hget, hrot, hend⟩ := get_possible_actions_spec ha
  have hlook : lookupTile s.tiles a.pos = some pt.2 := by
    rw [hpos]
    exact lookupTile_of_mem_nodup hnd hpt
  obtain ⟨s', happ, hgrid, hsource, hat, hother, hkeys⟩ :=
    apply_action_spec s a pt.2 hlook
  refine ⟨pt.2, hlook, hrot, ⟨s', happ, hat, hother, hgrid, hsource⟩, ?_⟩
  intro hte d hd nt hnt
  have hfaces : facesEndNeighbor s.tiles pt.1 variant = false := hend hte
  have hlt : a.rotation < (PIPE_TYPES pt.2.type).length :=
    (List.getElem?_eq_some_iff.mp hget).1
  have hvar : (PIPE_TYPES PipeType.e).getD a.rotation [] = variant := by
    rw [List.getD_eq_getElem?_getD, ← hte, hget]
    rfl
  have hconns : (Tile.mk PipeType.e a.rotation).get_connections = variant.map DIRS := by
    show List.map DIRS
        ((PIPE_TYPES PipeType.e).getD
          (a.rotation % (PIPE_TYPES PipeType.e).length) []) = List.map DIRS variant
    rw [Nat.mod_eq_of_lt (by rw [hte] at hlt; exact hlt), hvar]
  rw [hconns] at hd
  unfold facesEndNeighbor at hfaces
  rw [List.any_eq_false] at hfaces
  have hone := hfaces d hd
  rw [hpos] at hnt
  simp only [hnt, decide_eq_true_eq] at hone
  exact hone

/-- C4, instantiated: the first generated action of the two-tile
scenario. -/
theorem claim_C4_witness :
    (tileKeys exStraightEnd.tiles).Nodup ∧
    Action.mk (0, 0) 1 ∈ exStraightEnd.get_possible_actions ∧
    (∃ t : Tile, lookupTile exStraightEnd.tiles ((0 : Int), (0 : Int)) = some t ∧
      (1 : Nat) ≠ t.rotation ∧
      (∃ s', exStraightEnd.apply_action ⟨(0, 0), 1⟩ = some s' ∧
        lookupTile s'.tiles ((0 : Int), (0 : Int)) = some ⟨t.type, 1⟩ ∧
        (∀ q : Pos, q ≠ ((0 : Int), (0 : Int)) →
          lookupTile s'.tiles q = lookupTile exStraightEnd.tiles q) ∧
        s'.grid_size = exStraightEnd.grid_size ∧ s'.source = exStraightEnd.source) ∧
      (t.type = PipeType.e →
        ∀ d ∈ (Tile.mk PipeType.e 1).get_connections,
          ∀ nt : Tile,
            lookupTile exStraightEnd.tiles ((0 : Int) + d.1, (0 : Int) + d.2) = some nt →
            nt.type ≠ PipeType.e)) :=
  ⟨by decide, by decide,
    claim_C4_action_legality exStraightEnd (by decide) ⟨(0, 0), 1⟩ (by decide)⟩

/-- C2 amended, instantiated at the solved two-tile scenario. -/
theorem claim_C2_witness :
    exStraightEndGoal.source ∈ tileKeys exStraightEndGoal.tiles ∧
    exStraightEndGoal.is_goal = true ∧
    (exStraightEndGoal.get_connected_tiles.length = exStraightEndGoal.tiles.length ∧
      exStraightEndGoal.source ∈ exStraightEndGoal.get_connected_tiles) :=
  ⟨by decide, by decide, claim_C2_goal_soundness exStraightEndGoal (by decide) (by decide)⟩

/-- A run sorted under `itemLe` whose keys are pairwise distinct is
sorted under the strict order `itemLt`. -/
lemma sorted_itemLt_of_sorted_nodup {l : List (Pos × Tile)}
    (hs : List.Sorted itemLe l) (hnd : (l.map Prod.fst).Nodup) :
    List.Sorted itemLt l := by
  have hne : List.Pairwise (fun a b : Pos × Tile => a.1 ≠ b.1) l :=
    List.pairwise_map.mp hnd
  exact (hs.and hne).imp (fun h => h)

/-- C10: the canonical key and `__eq__` depend only on the tile map (as
a map): permuting the entry list — regardless of grid size or source —
yields an identical key, and the states compare equal, so duplicate
suppression never distinguishes states by source or grid size. -/
theorem claim_C10_canonical_key (s1 s2 : GameState)
    (hperm : s1.tiles.Perm s2.tiles) (hnd : (tileKeys s1.tiles).Nodup) :
    s1.hash = s2.hash ∧ GameState.eq s1 s2 = true := by
  have hnd2 : (tileKeys s2.tiles).Nodup := ((hperm.map Prod.fst).nodup_iff).mp hnd
  have hnd1' : ((List.insertionSort itemLe s1.tiles).map Prod.fst).Nodup :=
    (((List.perm_insertionSort itemLe s1.tiles).map Prod.fst).nodup_iff).mpr hnd
  have hnd2' : ((List.insertionSort itemLe s2.tiles).map Prod.fst).Nodup :=
    (((List.perm_insertionSort itemLe s2.tiles).map Prod.fst).nodup_iff).mpr hnd2
  have hpermsort :
      (List.insertionSort itemLe s1.tiles).Perm (List.insertionSort itemLe s2.tiles) :=
    (List.perm_insertionSort itemLe s1.tiles).trans
      (hperm.trans (List.perm_insertionSort itemLe s2.tiles).symm)
  have heq : List.insertionSort itemLe s1.tiles = List.insertionSort itemLe s2.tiles :=
    List.eq_of_perm_of_sorted hpermsort
      (sorted_itemLt_of_sorted_nodup (List.sorted_insertionSort itemLe s1.tiles) hnd1')
      (sorted_itemLt_of_sorted_nodup (List.sorted_insertionSort itemLe s2.tiles) hnd2')
  constructor
  · unfold GameState.hash
    rw [heq]
  · unfold GameState.eq
    apply decide_eq_true
    unfold GameState.hash
    rw [heq]

/-- C10, instantiated: the same two-tile map listed in opposite orders
with different grid sizes and sources. -/
theorem claim_C10_witness :
    exStraightEndGoal.tiles.Perm exPermuted.tiles ∧
    (tileKeys exStraightEndGoal.tiles).Nodup ∧
    (exStraightEndGoal.hash = exPermuted.hash ∧
      GameState.eq exStraightEndGoal exPermuted = true) :=
  ⟨by decide, by decide,
    claim_C10_canonical_key exStraightEndGoal exPermuted (by decide) (by decide)⟩

/-- C5, as stated, is false: `solve` pushes the initial state with
priority `0` — line 144 pushes the tuple `(0, 0, initial_state, [])` —
not with the initial state's heuristic, which here is `-7`. -/
theorem claim_C5_counterexample :
    (AISolver.initFrontier exStraightEnd).map Node.f = [0] ∧
    AISolver.heuristic exStraightEnd = -7 ∧
    (AISolver.initFrontier exStraightEnd).map Node.f ≠
      [AISolver.heuristic exStraightEnd] := by decide

/-- C5 amended: the initial push carries g = 0 (an empty path) and
priority f = 0; the heuristic is not consulted for it. -/
theorem claim_C5_initial_push (s : GameState) :
    AISolver.initFrontier s = [{ f := 0, counter := 0, state := s, path := [] }] ∧
    ∀ fuel, AISolver.solve s fuel =
      solveLoop fuel [{ f := 0, counter := 0, state := s, path := [] }] [] 0 :=
  ⟨rfl, fun _ => rfl⟩

/-- C8: in the two-tile scenario the initial state fails the goal test,
the single rotation of the end tile to face the straight tile yields a
goal state, and `solve` returns exactly that one-action sequence (the
loop finishes well within the given fuel). -/
theorem claim_C8_two_tile_scenario :
    exStraightEnd.is_goal = false ∧
    exStraightEnd.apply_action ⟨(0, 1), 3⟩ = some exStraightEndGoal ∧
    exStraightEndGoal.is_goal = true ∧
    AISolver.solve exStraightEnd 50 = some (some [⟨(0, 1), 3⟩]) := by decide

/-- C1 fails on the code: the two-end puzzle is solvable — folding
`apply_action` over two rotations reaches a goal state — yet `solve`
exhausts its frontier and reports `NotFound` (the end-facing-end
pruning of the action generator removes every action that could make
the two end tiles face each other). -/
theorem claim_C1_solver_contract_violated :
    foldApply exTwoEnds [⟨(0, 0), 1⟩, ⟨(0, 1), 3⟩] = some exTwoEndsGoal ∧
    exTwoEndsGoal.is_goal = true ∧
    AISolver.solve exTwoEnds 100 = some none := by decide

end BlindSearch
